import Mathlib

/-!
# Verification of the QemuClaw VM-supervisor core

Shallow embedding, in Lean 4, of the algorithmic core of the QemuClaw
repository:

* `src/terminal-manager.js` — serial-console client with auto-login
  (streaming substring state machine on the trailing buffer);
* `src/qmp-client.js` — QMP control-channel client (pending-command table,
  response correlation, per-command timeout, close handling);
* `src/vm-manager.js` — port allocation (`findFreePort`) and the
  `stop()` shutdown escalation (graceful → SIGTERM → SIGKILL timers);
* `src/update-checker.js` — split-asset selection (`getSplitAssets`) and
  `downloadFile` (redirect handling, error cleanup, progress reporting).

Text is modelled as `List Char` (JS strings), machine integers as `Nat`,
event-driven code as explicit transition functions over event traces.
-/

/- ### Text utilities (JS `String.prototype.includes` and friends) -/

/-- `leadsWith pat s` is true iff `pat` is an initial segment of `s`
(helper for modelling JS substring search). -/
def leadsWith : List Char → List Char → Bool
  | [], _ => true
  | _ :: _, [] => false
  | a :: as, b :: bs => a == b && leadsWith as bs

/-- `containsSeq pat s` models JS `s.includes(pat)`: `pat` occurs as a
contiguous run inside `s`. -/
def containsSeq (pat : List Char) : List Char → Bool
  | [] => leadsWith pat []
  | c :: rest => leadsWith pat (c :: rest) || containsSeq pat rest

theorem leadsWith_iff (pat s : List Char) :
    leadsWith pat s = true ↔ ∃ q, s = pat ++ q := by
  induction pat generalizing s with
  | nil => simp [leadsWith]
  | cons a as ih =>
    cases s with
    | nil => simp [leadsWith]
    | cons b bs =>
      simp only [leadsWith, Bool.and_eq_true, beq_iff_eq, ih]
      constructor
      · rintro ⟨rfl, q, rfl⟩
        exact ⟨q, rfl⟩
      · rintro ⟨q, hq⟩
        cases hq
        exact ⟨rfl, q, rfl⟩

theorem containsSeq_iff (pat s : List Char) :
    containsSeq pat s = true ↔ ∃ p q, s = p ++ pat ++ q := by
  induction s with
  | nil =>
    simp only [containsSeq, leadsWith_iff]
    constructor
    · rintro ⟨q, hq⟩
      exact ⟨[], q, by simpa using hq⟩
    · rintro ⟨p, q, hpq⟩
      have hp : p = [] ∧ pat ++ q = [] := by
        constructor
        · cases p with
          | nil => rfl
          | cons x xs => simp at hpq
        · cases p with
          | nil => simpa using hpq.symm
          | cons x xs => simp at hpq
      exact ⟨q, hp.2.symm⟩
  | cons c rest ih =>
    simp only [containsSeq, Bool.or_eq_true, leadsWith_iff, ih]
    constructor
    · rintro (⟨q, hq⟩ | ⟨p, q, hpq⟩)
      · exact ⟨[], q, by simpa using hq⟩
      · exact ⟨c :: p, q, by simp [hpq]⟩
    · rintro ⟨p, q, hpq⟩
      cases p with
      | nil => exact Or.inl ⟨q, by simpa using hpq⟩
      | cons x xs =>
        simp only [List.cons_append, List.cons.injEq] at hpq
        exact Or.inr ⟨xs, q, by simp [hpq.2]⟩

/-- A run occurring in a trailing part of a list occurs in the list. -/
theorem containsSeq_of_suffix {pat s t : List Char}
    (hsub : s <:+ t) (h : containsSeq pat s = true) :
    containsSeq pat t = true := by
  rcases (containsSeq_iff pat s).mp h with ⟨p, q, rfl⟩
  rcases hsub with ⟨u, rfl⟩
  exact (containsSeq_iff pat _).mpr ⟨u ++ p, q, by simp⟩

/- ### Console login automation — `TerminalManager.autoLogin`
(src/terminal-manager.js lines 411–501)

The `onData` handler appends each inbound chunk to a trailing buffer,
trims the buffer to its most recent 2048 characters when it exceeds 4096,
and then switches on `loginState`, matching `"login:"`, `"assword:"`, and
the shell-prompt markers `"$"`, `"#"`, `"~]"` with JS `includes`; the
buffer is cleared after every successful match.  The transient
`sending_username` / `sending_password` values are overwritten within the
same synchronous handler invocation and are collapsed here.  After the
`waiting_shell` match the code enters `configuring` and two nested
`setTimeout` callbacks (which consult no further console input) set
`loggedIn` and `loginState = 'ready'` and resolve the promise; the pair of
timers is modelled by `settleTimers`. -/

inductive LoginState
  | waitingLogin
  | waitingPassword
  | waitingShell
  | configuring
  | ready
deriving DecidableEq

structure LoginSt where
  loginState : LoginState
  buffer : List Char
  loggedIn : Bool
deriving DecidableEq

def loginInit : LoginSt := ⟨LoginState.waitingLogin, [], false⟩

/-- `if (buffer.length > 4096) buffer = buffer.slice(-2048)` -/
def trimTail (b : List Char) : List Char :=
  if 4096 < b.length then b.drop (b.length - 2048) else b

def loginPat : List Char := "login:".toList

def passwordPat : List Char := "assword:".toList

/-- `buffer.includes('$') || buffer.includes('#') || buffer.includes('~]')` -/
def shellHit (b : List Char) : Bool :=
  containsSeq "$".toList b || containsSeq "#".toList b || containsSeq "~]".toList b

/-- One invocation of the `onData` listener inside `autoLogin`. -/
def loginOnData (st : LoginSt) (data : List Char) : LoginSt :=
  let b := trimTail (st.buffer ++ data)
  match st.loginState with
  | LoginState.waitingLogin =>
    if containsSeq loginPat b then
      { st with buffer := [], loginState := LoginState.waitingPassword }
    else { st with buffer := b }
  | LoginState.waitingPassword =>
    if containsSeq passwordPat b then
      { st with buffer := [], loginState := LoginState.waitingShell }
    else { st with buffer := b }
  | LoginState.waitingShell =>
    if shellHit b then
      { st with buffer := [], loginState := LoginState.configuring }
    else { st with buffer := b }
  | LoginState.configuring => { st with buffer := b }
  | LoginState.ready => { st with buffer := b }

/-- The two nested `setTimeout` callbacks that run once `configuring` is
reached: they set `loggedIn = true`, `loginState = 'ready'` and resolve the
`autoLogin` promise, without consulting any further console input. -/
def settleTimers (st : LoginSt) : LoginSt :=
  if st.loginState = LoginState.configuring then
    { st with loginState := LoginState.ready, loggedIn := true }
  else st

/-- The automation state after feeding the scripted inbound chunks, in
order, through the `onData` listener. -/
def runLogin (chunks : List (List Char)) : LoginSt :=
  chunks.foldl loginOnData loginInit

/-- `autoLogin` completes (promise resolved, `loggedIn` set): the state
machine has reached `configuring` and the settle timers have fired. -/
def loginCompletes (chunks : List (List Char)) : Prop :=
  (settleTimers (runLogin chunks)).loginState = LoginState.ready

/-- The concatenated console stream presents, in order, a login prompt,
a password prompt, and a shell-prompt marker. -/
def presentsInOrder (s : List Char) : Prop :=
  ∃ x y z, s = x ++ y ++ z ∧ containsSeq loginPat x = true ∧
    containsSeq passwordPat y = true ∧ shellHit z = true

/- ### Buffer-bound and suffix lemmas for the login machine -/

theorem trimTail_length_le (b : List Char) : (trimTail b).length ≤ 4096 := by
  unfold trimTail
  split
  · simp only [List.length_drop]
    omega
  · omega

theorem trimTail_suffix (b : List Char) : trimTail b <:+ b := by
  unfold trimTail
  split
  · exact List.drop_suffix _ _
  · exact List.suffix_refl _

/-- A chunk of at most 2048 characters survives the trim of the buffer it
was just appended to. -/
theorem chunk_suffix_trim {b d : List Char} (hd : d.length ≤ 2048) :
    d <:+ trimTail (b ++ d) := by
  unfold trimTail
  split
  · have hk : (b ++ d).length - 2048 ≤ b.length := by
      simp only [List.length_append]
      omega
    rw [List.drop_append_of_le_length hk]
    exact List.suffix_append _ _
  · exact List.suffix_append _ _

theorem loginOnData_buffer_le (st : LoginSt) (d : List Char) :
    ((loginOnData st d).buffer).length ≤ 4096 := by
  unfold loginOnData
  cases st.loginState <;> simp only <;>
    first
      | (split
         · simp
         · exact trimTail_length_le _)
      | exact trimTail_length_le _

theorem runLogin_buffer_le (chunks : List (List Char)) :
    ((runLogin chunks).buffer).length ≤ 4096 := by
  suffices h : ∀ (l : List (List Char)) (st : LoginSt),
      st.buffer.length ≤ 4096 → ((l.foldl loginOnData st).buffer).length ≤ 4096 by
    exact h chunks loginInit (by simp [loginInit])
  intro l
  induction l with
  | nil => intro st hst; simpa using hst
  | cons d rest ih =>
    intro st _
    exact ih (loginOnData st d) (loginOnData_buffer_le st d)

/- ### Monotone progress of the login state -/

def stateIdx : LoginState → Nat
  | LoginState.waitingLogin => 0
  | LoginState.waitingPassword => 1
  | LoginState.waitingShell => 2
  | LoginState.configuring => 3
  | LoginState.ready => 4

theorem loginOnData_mono (st : LoginSt) (d : List Char) :
    stateIdx st.loginState ≤ stateIdx (loginOnData st d).loginState := by
  unfold loginOnData
  cases st.loginState <;> simp only <;>
    first
      | (split <;> simp [stateIdx])
      | simp [stateIdx]

theorem foldl_loginOnData_mono (l : List (List Char)) (st : LoginSt) :
    stateIdx st.loginState ≤ stateIdx ((l.foldl loginOnData st).loginState) := by
  induction l generalizing st with
  | nil => simp
  | cons d rest ih =>
    exact le_trans (loginOnData_mono st d) (ih (loginOnData st d))

theorem loginOnData_reach1 {d : List Char} (st : LoginSt)
    (hd : containsSeq loginPat d = true) (hlen : d.length ≤ 2048) :
    1 ≤ stateIdx (loginOnData st d).loginState := by
  unfold loginOnData
  cases h : st.loginState <;> simp only
  case waitingLogin =>
    have hc : containsSeq loginPat (trimTail (st.buffer ++ d)) = true :=
      containsSeq_of_suffix (chunk_suffix_trim hlen) hd
    rw [hc]
    simp [stateIdx]
  case waitingPassword => split <;> simp [stateIdx]
  case waitingShell => split <;> simp [stateIdx]
  case configuring => simp [stateIdx]
  case ready => simp [stateIdx]

theorem loginOnData_reach2 {d : List Char} (st : LoginSt)
    (hd : containsSeq passwordPat d = true) (hlen : d.length ≤ 2048)
    (hst : 1 ≤ stateIdx st.loginState) :
    2 ≤ stateIdx (loginOnData st d).loginState := by
  unfold loginOnData
  cases h : st.loginState <;> simp only
  case waitingLogin => rw [h] at hst; simp [stateIdx] at hst
  case waitingPassword =>
    have hc : containsSeq passwordPat (trimTail (st.buffer ++ d)) = true :=
      containsSeq_of_suffix (chunk_suffix_trim hlen) hd
    rw [hc]
    simp [stateIdx]
  case waitingShell => split <;> simp [stateIdx]
  case configuring => simp [stateIdx]
  case ready => simp [stateIdx]

theorem loginOnData_reach3 {d : List Char} (st : LoginSt)
    (hd : shellHit d = true) (hlen : d.length ≤ 2048)
    (hst : 2 ≤ stateIdx st.loginState) :
    3 ≤ stateIdx (loginOnData st d).loginState := by
  unfold loginOnData
  cases h : st.loginState <;> simp only
  case waitingLogin => rw [h] at hst; simp [stateIdx] at hst
  case waitingPassword => rw [h] at hst; simp [stateIdx] at hst
  case waitingShell =>
    have hc : shellHit (trimTail (st.buffer ++ d)) = true := by
      unfold shellHit at hd ⊢
      have hsub : d <:+ trimTail (st.buffer ++ d) := chunk_suffix_trim hlen
      rcases Bool.or_eq_true _ _ |>.mp hd with h1 | h2
      · rcases Bool.or_eq_true _ _ |>.mp h1 with ha | hb
        · exact Bool.or_eq_true _ _ |>.mpr (Or.inl (Bool.or_eq_true _ _ |>.mpr
            (Or.inl (containsSeq_of_suffix hsub ha))))
        · exact Bool.or_eq_true _ _ |>.mpr (Or.inl (Bool.or_eq_true _ _ |>.mpr
            (Or.inr (containsSeq_of_suffix hsub hb))))
      · exact Bool.or_eq_true _ _ |>.mpr (Or.inr (containsSeq_of_suffix hsub h2))
    rw [hc]
    simp [stateIdx]
  case configuring => simp [stateIdx]
  case ready => simp [stateIdx]

/- ### Soundness invariant: matches reflect stream content in order -/

theorem containsSeq_append_right {pat s : List Char} (t : List Char)
    (h : containsSeq pat s = true) : containsSeq pat (s ++ t) = true := by
  rcases (containsSeq_iff pat s).mp h with ⟨p, q, rfl⟩
  exact (containsSeq_iff pat _).mpr ⟨p, q ++ t, by simp⟩

theorem shellHit_of_suffix {s t : List Char} (hsub : s <:+ t)
    (h : shellHit s = true) : shellHit t = true := by
  unfold shellHit at h ⊢
  rcases Bool.or_eq_true _ _ |>.mp h with h1 | h2
  · rcases Bool.or_eq_true _ _ |>.mp h1 with ha | hb
    · exact Bool.or_eq_true _ _ |>.mpr (Or.inl (Bool.or_eq_true _ _ |>.mpr
        (Or.inl (containsSeq_of_suffix hsub ha))))
    · exact Bool.or_eq_true _ _ |>.mpr (Or.inl (Bool.or_eq_true _ _ |>.mpr
        (Or.inr (containsSeq_of_suffix hsub hb))))
  · exact Bool.or_eq_true _ _ |>.mpr (Or.inr (containsSeq_of_suffix hsub h2))

theorem shellHit_append_right {s : List Char} (t : List Char)
    (h : shellHit s = true) : shellHit (s ++ t) = true := by
  unfold shellHit at h ⊢
  rcases Bool.or_eq_true _ _ |>.mp h with h1 | h2
  · rcases Bool.or_eq_true _ _ |>.mp h1 with ha | hb
    · exact Bool.or_eq_true _ _ |>.mpr (Or.inl (Bool.or_eq_true _ _ |>.mpr
        (Or.inl (containsSeq_append_right t ha))))
    · exact Bool.or_eq_true _ _ |>.mpr (Or.inl (Bool.or_eq_true _ _ |>.mpr
        (Or.inr (containsSeq_append_right t hb))))
  · exact Bool.or_eq_true _ _ |>.mpr (Or.inr (containsSeq_append_right t h2))

/-- Invariant tying the machine state to the portion of the console stream
consumed so far: at each stage the prompts already matched occur, in
order, in the consumed stream, and the buffer is a trailing part of what
arrived after the last match. -/
def soundInv (st : LoginSt) (consumed : List Char) : Prop :=
  match st.loginState with
  | LoginState.waitingLogin => ∃ u, consumed = u ++ st.buffer
  | LoginState.waitingPassword =>
      ∃ x y, consumed = x ++ y ∧ containsSeq loginPat x = true ∧
        ∃ u, y = u ++ st.buffer
  | LoginState.waitingShell =>
      ∃ x y z, consumed = x ++ y ++ z ∧ containsSeq loginPat x = true ∧
        containsSeq passwordPat y = true ∧ ∃ u, z = u ++ st.buffer
  | LoginState.configuring => presentsInOrder consumed
  | LoginState.ready => presentsInOrder consumed

theorem presentsInOrder_append (s t : List Char) (h : presentsInOrder s) :
    presentsInOrder (s ++ t) := by
  rcases h with ⟨x, y, z, rfl, h1, h2, h3⟩
  exact ⟨x, y, z ++ t, by simp, h1, h2, shellHit_append_right t h3⟩

theorem soundInv_step (st : LoginSt) (c d : List Char) (h : soundInv st c) :
    soundInv (loginOnData st d) (c ++ d) := by
  obtain ⟨ls, b, li⟩ := st
  obtain ⟨v, hv⟩ := trimTail_suffix (b ++ d)
  cases ls
  case waitingLogin =>
    obtain ⟨u, rfl⟩ := h
    dsimp only
    cases hmb : containsSeq loginPat (trimTail (b ++ d))
    case false =>
      have hstep : loginOnData ⟨LoginState.waitingLogin, b, li⟩ d
          = ⟨LoginState.waitingLogin, trimTail (b ++ d), li⟩ := by
        unfold loginOnData
        simp [hmb]
      rw [hstep]
      show ∃ u2, u ++ b ++ d = u2 ++ trimTail (b ++ d)
      refine ⟨u ++ v, ?_⟩
      calc u ++ b ++ d = u ++ (b ++ d) := by rw [List.append_assoc]
        _ = u ++ (v ++ trimTail (b ++ d)) := by rw [hv]
        _ = u ++ v ++ trimTail (b ++ d) := by rw [List.append_assoc]
    case true =>
      have hstep : loginOnData ⟨LoginState.waitingLogin, b, li⟩ d
          = ⟨LoginState.waitingPassword, [], li⟩ := by
        unfold loginOnData
        simp [hmb]
      rw [hstep]
      show ∃ x y, u ++ b ++ d = x ++ y ∧ containsSeq loginPat x = true ∧
        ∃ u2, y = u2 ++ []
      obtain ⟨p, q, hpq⟩ := (containsSeq_iff _ _).mp hmb
      refine ⟨u ++ v ++ p ++ loginPat, q, ?_,
        (containsSeq_iff _ _).mpr ⟨u ++ v ++ p, [], by simp⟩, q, by simp⟩
      calc u ++ b ++ d = u ++ (b ++ d) := by rw [List.append_assoc]
        _ = u ++ (v ++ trimTail (b ++ d)) := by rw [hv]
        _ = u ++ (v ++ (p ++ loginPat ++ q)) := by rw [hpq]
        _ = u ++ v ++ p ++ loginPat ++ q := by simp [List.append_assoc]
  case waitingPassword =>
    obtain ⟨x, y, rfl, hx, u, rfl⟩ := h
    dsimp only
    cases hmb : containsSeq passwordPat (trimTail (b ++ d))
    case false =>
      have hstep : loginOnData ⟨LoginState.waitingPassword, b, li⟩ d
          = ⟨LoginState.waitingPassword, trimTail (b ++ d), li⟩ := by
        unfold loginOnData
        simp [hmb]
      rw [hstep]
      show ∃ x2 y2, x ++ (u ++ b) ++ d = x2 ++ y2 ∧
        containsSeq loginPat x2 = true ∧ ∃ u2, y2 = u2 ++ trimTail (b ++ d)
      refine ⟨x, u ++ v ++ trimTail (b ++ d), ?_, hx, u ++ v, by simp⟩
      calc x ++ (u ++ b) ++ d = x ++ (u ++ (b ++ d)) := by simp [List.append_assoc]
        _ = x ++ (u ++ (v ++ trimTail (b ++ d))) := by rw [hv]
        _ = x ++ (u ++ v ++ trimTail (b ++ d)) := by simp [List.append_assoc]
    case true =>
      have hstep : loginOnData ⟨LoginState.waitingPassword, b, li⟩ d
          = ⟨LoginState.waitingShell, [], li⟩ := by
        unfold loginOnData
        simp [hmb]
      rw [hstep]
      show ∃ x2 y2 z2, x ++ (u ++ b) ++ d = x2 ++ y2 ++ z2 ∧
        containsSeq loginPat x2 = true ∧ containsSeq passwordPat y2 = true ∧
        ∃ u2, z2 = u2 ++ []
      obtain ⟨p, q, hpq⟩ := (containsSeq_iff _ _).mp hmb
      refine ⟨x, u ++ v ++ p ++ passwordPat, q, ?_, hx,
        (containsSeq_iff _ _).mpr ⟨u ++ v ++ p, [], by simp⟩, q, by simp⟩
      calc x ++ (u ++ b) ++ d = x ++ (u ++ (b ++ d)) := by simp [List.append_assoc]
        _ = x ++ (u ++ (v ++ trimTail (b ++ d))) := by rw [hv]
        _ = x ++ (u ++ (v ++ (p ++ passwordPat ++ q))) := by rw [hpq]
        _ = x ++ (u ++ v ++ p ++ passwordPat) ++ q := by simp [List.append_assoc]
  case waitingShell =>
    obtain ⟨x, y, z, rfl, hx, hy, u, rfl⟩ := h
    dsimp only
    cases hmb : shellHit (trimTail (b ++ d))
    case false =>
      have hstep : loginOnData ⟨LoginState.waitingShell, b, li⟩ d
          = ⟨LoginState.waitingShell, trimTail (b ++ d), li⟩ := by
        unfold loginOnData
        simp [hmb]
      rw [hstep]
      show ∃ x2 y2 z2, x ++ y ++ (u ++ b) ++ d = x2 ++ y2 ++ z2 ∧
        containsSeq loginPat x2 = true ∧ containsSeq passwordPat y2 = true ∧
        ∃ u2, z2 = u2 ++ trimTail (b ++ d)
      refine ⟨x, y, u ++ v ++ trimTail (b ++ d), ?_, hx, hy, u ++ v, by simp⟩
      calc x ++ y ++ (u ++ b) ++ d
          = x ++ y ++ (u ++ (b ++ d)) := by simp [List.append_assoc]
        _ = x ++ y ++ (u ++ (v ++ trimTail (b ++ d))) := by rw [hv]
        _ = x ++ y ++ (u ++ v ++ trimTail (b ++ d)) := by simp [List.append_assoc]
    case true =>
      have hstep : loginOnData ⟨LoginState.waitingShell, b, li⟩ d
          = ⟨LoginState.configuring, [], li⟩ := by
        unfold loginOnData
        simp [hmb]
      rw [hstep]
      show presentsInOrder (x ++ y ++ (u ++ b) ++ d)
      refine ⟨x, y, u ++ v ++ trimTail (b ++ d), ?_, hx, hy,
        shellHit_of_suffix ⟨u ++ v, by simp⟩ hmb⟩
      calc x ++ y ++ (u ++ b) ++ d
          = x ++ y ++ (u ++ (b ++ d)) := by simp [List.append_assoc]
        _ = x ++ y ++ (u ++ (v ++ trimTail (b ++ d))) := by rw [hv]
        _ = x ++ y ++ (u ++ v ++ trimTail (b ++ d)) := by simp [List.append_assoc]
  case configuring =>
    have hstep : loginOnData ⟨LoginState.configuring, b, li⟩ d
        = ⟨LoginState.configuring, trimTail (b ++ d), li⟩ := by
      unfold loginOnData
      simp
    rw [hstep]
    exact presentsInOrder_append c d h
  case ready =>
    have hstep : loginOnData ⟨LoginState.ready, b, li⟩ d
        = ⟨LoginState.ready, trimTail (b ++ d), li⟩ := by
      unfold loginOnData
      simp
    rw [hstep]
    exact presentsInOrder_append c d h

theorem soundInv_foldl (l : List (List Char)) (st : LoginSt) (c : List Char)
    (h : soundInv st c) :
    soundInv (l.foldl loginOnData st) (c ++ l.flatten) := by
  induction l generalizing st c with
  | nil => simpa using h
  | cons d rest ih =>
    have h2 := ih (loginOnData st d) (c ++ d) (soundInv_step st c d h)
    simpa [List.append_assoc] using h2

theorem soundInv_done {st : LoginSt} {c : List Char} (h : soundInv st c)
    (hst : st.loginState = LoginState.configuring ∨
      st.loginState = LoginState.ready) :
    presentsInOrder c := by
  unfold soundInv at h
  rcases hst with hst | hst <;> rw [hst] at h <;> exact h

theorem loginCompletes_state {chunks : List (List Char)}
    (h : loginCompletes chunks) :
    (runLogin chunks).loginState = LoginState.configuring ∨
      (runLogin chunks).loginState = LoginState.ready := by
  unfold loginCompletes settleTimers at h
  split at h
  · exact Or.inl (by assumption)
  · exact Or.inr h

theorem completes_of_idx {st : LoginSt} (h : 3 ≤ stateIdx st.loginState) :
    (settleTimers st).loginState = LoginState.ready := by
  unfold settleTimers
  cases hst : st.loginState
  case waitingLogin => rw [hst] at h; simp [stateIdx] at h
  case waitingPassword => rw [hst] at h; simp [stateIdx] at h
  case waitingShell => rw [hst] at h; simp [stateIdx] at h
  case configuring => simp
  case ready =>
    rw [if_neg (by simp)]
    exact hst

/-- C1 (counterexample).  The claim "autoLogin reaches Ready if and only if
the inbound byte stream presents, in order, a login prompt, a password
prompt and a shell prompt" is false in its "if" direction: a single chunk
presenting all three prompts in order does NOT complete the automation,
because the handler clears the whole trailing buffer after the `"login:"`
match, discarding the password and shell prompts that arrived in the same
chunk; no later state can then ever match.  -/
theorem autoLogin_stream_order_cex :
    presentsInOrder ("login: Password: $".toList) ∧
    ¬ loginCompletes ["login: Password: $".toList] := by
  constructor
  · exact ⟨"login: ".toList, "Password: ".toList, "$".toList,
      by decide, by decide, by decide, by decide⟩
  · unfold loginCompletes
    decide

/-- C1 (amended).  Soundness holds as claimed: if `autoLogin` completes,
the concatenated inbound stream did present `"login:"`, then `"assword:"`,
then a shell-prompt marker, in that order (so automation never falsely
completes on out-of-order or missing prompts).  Completeness holds at
chunk granularity: if three distinct chunks, each of at most 2048
characters (so the trim cannot drop them), present the three prompts at
strictly increasing positions in the chunk sequence, automation reaches
Ready.  The unrestricted "if" direction of the claim fails
(`autoLogin_stream_order_cex`): prompts that arrive in the same chunk as
an earlier match are discarded when the buffer is cleared. -/
theorem autoLogin_ready_characterization (chunks : List (List Char)) :
    (loginCompletes chunks → presentsInOrder chunks.flatten) ∧
    (∀ pre a mid1 b mid2 c post,
      chunks = pre ++ a :: (mid1 ++ b :: (mid2 ++ c :: post)) →
      containsSeq loginPat a = true → a.length ≤ 2048 →
      containsSeq passwordPat b = true → b.length ≤ 2048 →
      shellHit c = true → c.length ≤ 2048 →
      loginCompletes chunks) := by
  constructor
  · intro hc
    have hinit : soundInv loginInit [] := by
      show ∃ u, ([] : List Char) = u ++ loginInit.buffer
      exact ⟨[], rfl⟩
    have hinv := soundInv_foldl chunks loginInit [] hinit
    rw [List.nil_append] at hinv
    exact soundInv_done hinv (loginCompletes_state hc)
  · intro pre a mid1 b mid2 c post hsplit ha hal hb hbl hcc hcl
    have hrun : runLogin chunks
        = post.foldl loginOnData (loginOnData
            (mid2.foldl loginOnData (loginOnData
              (mid1.foldl loginOnData (loginOnData
                (pre.foldl loginOnData loginInit) a)) b)) c) := by
      rw [hsplit]
      unfold runLogin
      simp [List.foldl_append]
    have i1 : 1 ≤ stateIdx ((loginOnData
        (pre.foldl loginOnData loginInit) a).loginState) :=
      loginOnData_reach1 _ ha hal
    have i2 : 2 ≤ stateIdx ((loginOnData (mid1.foldl loginOnData
        (loginOnData (pre.foldl loginOnData loginInit) a)) b).loginState) :=
      loginOnData_reach2 _ hb hbl (le_trans i1 (foldl_loginOnData_mono _ _))
    have i3 : 3 ≤ stateIdx ((loginOnData (mid2.foldl loginOnData
        (loginOnData (mid1.foldl loginOnData (loginOnData
          (pre.foldl loginOnData loginInit) a)) b)) c).loginState) :=
      loginOnData_reach3 _ hcc hcl (le_trans i2 (foldl_loginOnData_mono _ _))
    have hfin : 3 ≤ stateIdx ((runLogin chunks).loginState) := by
      rw [hrun]
      exact le_trans i3 (foldl_loginOnData_mono _ _)
    exact completes_of_idx hfin

/-- C1 (witness): a boot transcript delivering the three prompts in three
separate chunks logs in. -/
theorem autoLogin_ready_characterization_witness :
    loginCompletes
      ["boot login: ".toList, "Password: ".toList, "user@vm ~]$ ".toList] :=
  (autoLogin_ready_characterization
      ["boot login: ".toList, "Password: ".toList, "user@vm ~]$ ".toList]).2
    [] "boot login: ".toList [] "Password: ".toList [] "user@vm ~]$ ".toList []
    rfl (by decide) (by decide) (by decide) (by decide) (by decide) (by decide)

/-- C3: the trailing console buffer is bounded: after any sequence of
inbound chunks of any sizes, the buffer holds at most 4096 characters;
a single `onData` invocation from any state also leaves at most 4096; and
whenever an append pushes the buffer over the cap it is trimmed to the
most recent 2048-character tail (a strictly smaller trailing window). -/
theorem console_trailing_buffer_bounded :
    (∀ chunks : List (List Char), ((runLogin chunks).buffer).length ≤ 4096) ∧
    (∀ (st : LoginSt) (d : List Char),
      (((loginOnData st d).buffer)).length ≤ 4096) ∧
    (∀ b : List Char, 4096 < b.length →
      (trimTail b).length = 2048 ∧ ∃ u, b = u ++ trimTail b) := by
  refine ⟨runLogin_buffer_le, loginOnData_buffer_le, fun b hb => ⟨?_, ?_⟩⟩
  · unfold trimTail
    rw [if_pos hb]
    simp only [List.length_drop]
    omega
  · obtain ⟨u, hu⟩ := trimTail_suffix b
    exact ⟨u, hu.symm⟩

/-- C3 (witness): a 4097-character buffer is trimmed to its last 2048
characters. -/
theorem console_trailing_buffer_bounded_witness :
    (trimTail (List.replicate 4097 'a')).length = 2048 ∧
    ∃ u, List.replicate 4097 'a' = u ++ trimTail (List.replicate 4097 'a') :=
  console_trailing_buffer_bounded.2.2 _ (by rw [List.length_replicate]; norm_num)

/- ### Console client `write` — `TerminalManager.write`
(src/terminal-manager.js lines 503–507)

`write(data)` is `if (this.socket && this.connected) this.socket.write(data)`.
The session state is modelled with the socket reference (`hasSocket`),
the `connected` and `loggedIn` flags, and a ghost log `sent` of the data
actually written to the socket.  The events are the handlers that mutate
those fields: a successful `_tryConnect` (socket assigned, `connected`
set), a failed `_tryConnect` (socket assigned then destroyed, reference
kept), the socket `error` and `close` listeners, and `disconnect()`. -/

structure TMState where
  hasSocket : Bool
  connected : Bool
  loggedIn : Bool
  sent : List (List Char)
deriving DecidableEq

def tmInit : TMState := ⟨false, false, false, []⟩

inductive TMEv
  | connectOk
  | connectFailed
  | socketError
  | socketClose
  | disconnectCall
deriving DecidableEq

def tmStep (s : TMState) : TMEv → TMState
  | TMEv.connectOk => { s with hasSocket := true, connected := true }
  | TMEv.connectFailed => { s with hasSocket := true }
  | TMEv.socketError => { s with connected := false }
  | TMEv.socketClose => { s with connected := false, loggedIn := false }
  | TMEv.disconnectCall =>
      { s with connected := false, loggedIn := false, hasSocket := false }

def runTM (evs : List TMEv) : TMState := evs.foldl tmStep tmInit

/-- `TerminalManager.write` -/
def tmWrite (s : TMState) (d : List Char) : TMState :=
  if s.hasSocket && s.connected then { s with sent := s.sent ++ [d] }
  else s

theorem tm_connected_hasSocket (evs : List TMEv) :
    (runTM evs).connected = true → (runTM evs).hasSocket = true := by
  suffices h : ∀ (l : List TMEv) (s : TMState),
      (s.connected = true → s.hasSocket = true) →
      ((l.foldl tmStep s).connected = true → (l.foldl tmStep s).hasSocket = true) by
    exact h evs tmInit (by simp [tmInit])
  intro l
  induction l with
  | nil => intro s hs; simpa using hs
  | cons e rest ih =>
    intro s hs
    refine ih (tmStep s e) ?_
    cases e <;> simp [tmStep]

/-- C8: the console client's `write` is total (the model is a total
function — no error in any session state); in every reachable session
state it appends the data to the socket send log exactly when the session
is connected, and is a silent no-op (identical state, nothing sent)
whenever the socket is absent or the session is disconnected. -/
theorem terminal_write_spec (evs : List TMEv) (d : List Char) :
    ((runTM evs).connected = true →
      tmWrite (runTM evs) d = { runTM evs with sent := (runTM evs).sent ++ [d] }) ∧
    ((runTM evs).connected = false → tmWrite (runTM evs) d = runTM evs) := by
  constructor
  · intro hc
    unfold tmWrite
    rw [if_pos (by rw [tm_connected_hasSocket evs hc, hc]; rfl)]
  · intro hc
    unfold tmWrite
    rw [if_neg (by rw [hc]; simp)]

/-- C8 (witness): after a successful connect, `write` sends; after a
subsequent close, `write` is a no-op. -/
theorem terminal_write_spec_witness :
    tmWrite (runTM [TMEv.connectOk]) "ls".toList
      = { runTM [TMEv.connectOk] with
            sent := (runTM [TMEv.connectOk]).sent ++ ["ls".toList] } ∧
    tmWrite (runTM [TMEv.connectOk, TMEv.socketClose]) "ls".toList
      = runTM [TMEv.connectOk, TMEv.socketClose] :=
  ⟨(terminal_write_spec [TMEv.connectOk] "ls".toList).1 (by decide),
   (terminal_write_spec [TMEv.connectOk, TMEv.socketClose] "ls".toList).2 (by decide)⟩

/- ### Control-channel client — `QMPClient` (src/qmp-client.js)

One session of the client after the TCP connection is established.  The
inbound newline-delimited JSON records are modelled by their shape as the
`data` handler classifies them (lines 83–120): a greeting (`msg.QMP`),
a record with a `return` field and an optional `id`, a record with an
`error` field and an optional `id`, or an asynchronous event record.
The other transitions are an `execute()` call (lines 145–168), the 10s
per-command timeout callback firing for a given id, the socket `close`
handler (lines 134–142), and an explicit `disconnect()` (lines 182–189).

Ghost fields record what the promises observe: `issued` logs the command
ids handed out by `execute()`, and `settled` logs each settlement of a
pending slot as `(id, resolved?)` — `execute()`'s promise resolves or
rejects exactly when its slot is removed together with a `resolve`/
`reject` call.  `disconnect()` clears the table without any settlement
(line 188), which is the behaviour at issue in claim C2. -/

inductive QMPMsg
  | greeting
  | result (id : Option Nat)
  | errorMsg (id : Option Nat)
  | eventMsg
deriving DecidableEq

inductive QMPEvent
  | recv (m : QMPMsg)
  | execCall
  | timeoutFire (id : Nat)
  | closeEvt
  | disconnectCall
deriving DecidableEq

structure QMPState where
  connected : Bool
  negotiated : Bool
  ready : Bool
  commandId : Nat
  pending : List Nat
  issued : List Nat
  settled : List (Nat × Bool)
deriving DecidableEq

def qmpInit : QMPState := ⟨true, false, false, 0, [], [], []⟩

/-- Settle the slot `id` (remove it from the table and resolve/reject its
promise) if it is still pending; otherwise do nothing. -/
def settleIfPending (s : QMPState) (id : Nat) (resolved : Bool) : QMPState :=
  if id ∈ s.pending then
    { s with pending := s.pending.erase id, settled := s.settled ++ [(id, resolved)] }
  else s

def stepQMP (s : QMPState) : QMPEvent → QMPState
  | QMPEvent.recv QMPMsg.greeting => s
  | QMPEvent.recv (QMPMsg.result oid) =>
      if s.negotiated = false then
        { s with negotiated := true, ready := true }
      else
        match oid with
        | some id => settleIfPending s id true
        | none => s
  | QMPEvent.recv (QMPMsg.errorMsg oid) =>
      match oid with
      | some id => settleIfPending s id false
      | none => s
  | QMPEvent.recv QMPMsg.eventMsg => s
  | QMPEvent.execCall =>
      if s.ready then
        { s with commandId := s.commandId + 1,
                 pending := s.pending ++ [s.commandId + 1],
                 issued := s.issued ++ [s.commandId + 1] }
      else s
  | QMPEvent.timeoutFire id => settleIfPending s id false
  | QMPEvent.closeEvt =>
      { s with connected := false, ready := false,
               settled := s.settled ++ s.pending.map (fun id => (id, false)),
               pending := [] }
  | QMPEvent.disconnectCall =>
      { s with connected := false, ready := false, pending := [] }

def runQMP (tr : List QMPEvent) : QMPState := tr.foldl stepQMP qmpInit

/-- The ids against which settlements were logged. -/
def settledIds (s : QMPState) : List Nat := s.settled.map Prod.fst

/-- Session invariant maintained by every event. -/
structure QMPInv (s : QMPState) : Prop where
  nodup : s.pending.Nodup
  pend_le : ∀ id ∈ s.pending, id ≤ s.commandId
  settled_le : ∀ id ∈ settledIds s, id ≤ s.commandId
  pend_not_settled : ∀ id ∈ s.pending, (settledIds s).count id = 0
  once : ∀ id, (settledIds s).count id ≤ 1

theorem settleIfPending_of_mem {s : QMPState} {id : Nat} (r : Bool)
    (hmem : id ∈ s.pending) :
    (settleIfPending s id r).pending = s.pending.erase id ∧
    settledIds (settleIfPending s id r) = settledIds s ++ [id] ∧
    (settleIfPending s id r).commandId = s.commandId ∧
    (settleIfPending s id r).issued = s.issued ∧
    (settleIfPending s id r).ready = s.ready ∧
    (settleIfPending s id r).connected = s.connected ∧
    (settleIfPending s id r).negotiated = s.negotiated ∧
    (settleIfPending s id r).settled = s.settled ++ [(id, r)] := by
  unfold settleIfPending
  rw [if_pos hmem]
  refine ⟨rfl, ?_, rfl, rfl, rfl, rfl, rfl, rfl⟩
  simp [settledIds]

theorem settleIfPending_of_not_mem {s : QMPState} {id : Nat} (r : Bool)
    (hmem : id ∉ s.pending) : settleIfPending s id r = s := by
  unfold settleIfPending
  rw [if_neg hmem]

theorem qmpInv_settleIfPending {s : QMPState} (h : QMPInv s) (id : Nat)
    (r : Bool) : QMPInv (settleIfPending s id r) := by
  by_cases hmem : id ∈ s.pending
  case neg => rw [settleIfPending_of_not_mem r hmem]; exact h
  case pos =>
    obtain ⟨hpend, hids, hcid, -, -, -, -, -⟩ := settleIfPending_of_mem r hmem
    constructor
    · rw [hpend]
      exact h.nodup.erase id
    · intro j hj
      rw [hpend] at hj
      rw [hcid]
      exact h.pend_le j (List.mem_of_mem_erase hj)
    · intro j hj
      rw [hids] at hj
      rw [hcid]
      rcases List.mem_append.mp hj with hj | hj
      · exact h.settled_le j hj
      · have hje : j = id := by simpa using hj
        exact hje ▸ h.pend_le id hmem
    · intro j hj
      rw [hpend] at hj
      have hji : j ≠ id := by
        intro heq
        exact (h.nodup.not_mem_erase) (heq ▸ hj)
      rw [hids, List.count_append]
      have h1 : (settledIds s).count j = 0 :=
        h.pend_not_settled j (List.mem_of_mem_erase hj)
      have h2 : List.count j [id] = 0 := by
        simp [List.count_cons, hji]
      omega
    · intro j
      rw [hids, List.count_append]
      by_cases hji : j = id
      · subst hji
        have h1 : (settledIds s).count j = 0 := h.pend_not_settled j hmem
        simp [h1, List.count_cons]
      · have h2 : List.count j [id] = 0 := by
          simp [List.count_cons, hji]
        have := h.once j
        omega

theorem qmpInv_step {s : QMPState} (h : QMPInv s) (e : QMPEvent) :
    QMPInv (stepQMP s e) := by
  cases e
  case recv m =>
    cases m
    case greeting => exact h
    case result oid =>
      simp only [stepQMP]
      split
      · exact ⟨h.nodup, h.pend_le, h.settled_le, h.pend_not_settled, h.once⟩
      · cases oid
        case some id => exact qmpInv_settleIfPending h id true
        case none => exact h
    case errorMsg oid =>
      cases oid
      case some id => exact qmpInv_settleIfPending h id false
      case none => exact h
    case eventMsg => exact h
  case execCall =>
    simp only [stepQMP]
    split
    case isTrue =>
      refine ⟨?_, ?_, ?_, ?_, h.once⟩
      · show (s.pending ++ [s.commandId + 1]).Nodup
        refine List.Nodup.append h.nodup (List.nodup_singleton _) ?_
        intro a ha hb
        have h1 : a ≤ s.commandId := h.pend_le a ha
        have h2 : a = s.commandId + 1 := by simpa using hb
        omega
      · intro j hj
        show j ≤ s.commandId + 1
        rcases List.mem_append.mp hj with hj | hj
        · exact Nat.le_succ_of_le (h.pend_le j hj)
        · have : j = s.commandId + 1 := by simpa using hj
          omega
      · intro j hj
        show j ≤ s.commandId + 1
        exact Nat.le_succ_of_le (h.settled_le j hj)
      · intro j hj
        show (settledIds s).count j = 0
        rcases List.mem_append.mp hj with hj | hj
        · exact h.pend_not_settled j hj
        · have hj2 : j = s.commandId + 1 := by simpa using hj
          rw [List.count_eq_zero]
          intro hmem
          have := h.settled_le j hmem
          omega
    case isFalse => exact h
  case timeoutFire id => exact qmpInv_settleIfPending h id false
  case closeEvt =>
    have hids : settledIds (stepQMP s QMPEvent.closeEvt)
        = settledIds s ++ s.pending := by
      simp only [stepQMP, settledIds, List.map_append, List.map_map]
      congr 1
      exact List.map_id _ ▸ rfl
    refine ⟨by simp [stepQMP], by simp [stepQMP], ?_, by simp [stepQMP], ?_⟩
    · intro j hj
      rw [hids] at hj
      show j ≤ s.commandId
      rcases List.mem_append.mp hj with hj | hj
      · exact h.settled_le j hj
      · exact h.pend_le j hj
    · intro j
      rw [hids, List.count_append]
      by_cases hj : j ∈ s.pending
      · have h1 : (settledIds s).count j = 0 := h.pend_not_settled j hj
        have h2 : s.pending.count j = 1 := List.count_eq_one_of_mem h.nodup hj
        omega
      · have h2 : s.pending.count j = 0 := List.count_eq_zero.mpr hj
        have := h.once j
        omega
  case disconnectCall =>
    exact ⟨by simp [stepQMP], by simp [stepQMP], h.settled_le,
      by simp [stepQMP], h.once⟩

theorem qmpInv_run (tr : List QMPEvent) : QMPInv (runQMP tr) := by
  suffices hgen : ∀ (l : List QMPEvent) (s : QMPState),
      QMPInv s → QMPInv (l.foldl stepQMP s) by
    refine hgen tr qmpInit ?_
    exact ⟨by simp [qmpInit], by simp [qmpInit], by simp [qmpInit, settledIds],
      by simp [qmpInit], by simp [qmpInit, settledIds]⟩
  intro l
  induction l with
  | nil => intro s hs; exact hs
  | cons e rest ih => intro s hs; exact ih (stepQMP s e) (qmpInv_step hs e)

theorem settledIds_close (s : QMPState) :
    settledIds (stepQMP s QMPEvent.closeEvt) = settledIds s ++ s.pending := by
  simp only [stepQMP, settledIds, List.map_append, List.map_map]
  congr 1
  exact List.map_id _ ▸ rfl

/-- Each id handed out by `execute()` either still has its pending slot or
has been settled exactly once.  Broken only by `disconnect()`. -/
def QMPIssuedInv (s : QMPState) : Prop :=
  ∀ id ∈ s.issued, id ∈ s.pending ∨ (settledIds s).count id = 1

theorem qmpIssuedInv_settle {s : QMPState} (hbase : QMPInv s)
    (h : QMPIssuedInv s) (id : Nat) (r : Bool) :
    QMPIssuedInv (settleIfPending s id r) := by
  by_cases hmem : id ∈ s.pending
  case neg => rw [settleIfPending_of_not_mem r hmem]; exact h
  case pos =>
    obtain ⟨hpend, hids, -, hiss, -, -, -, -⟩ := settleIfPending_of_mem r hmem
    intro j hj
    rw [hiss] at hj
    rcases h j hj with hjp | hjc
    · by_cases hji : j = id
      · subst hji
        right
        rw [hids, List.count_append]
        have h1 : (settledIds s).count j = 0 := hbase.pend_not_settled j hjp
        simp [h1, List.count_cons]
      · left
        rw [hpend]
        exact (List.mem_erase_of_ne hji).mpr hjp
    · right
      have hji : j ≠ id := by
        intro heq
        have h0 := hbase.pend_not_settled id hmem
        rw [heq] at hjc
        omega
      rw [hids, List.count_append]
      have h2 : List.count j [id] = 0 := by simp [List.count_cons, hji]
      omega

theorem qmpIssuedInv_step {s : QMPState} (hbase : QMPInv s)
    (h : QMPIssuedInv s) (e : QMPEvent)
    (he : e ≠ QMPEvent.disconnectCall) : QMPIssuedInv (stepQMP s e) := by
  cases e
  case recv m =>
    cases m
    case greeting => exact h
    case result oid =>
      simp only [stepQMP]
      split
      · intro j hj
        exact h j hj
      · cases oid
        case some id => exact qmpIssuedInv_settle hbase h id true
        case none => exact h
    case errorMsg oid =>
      cases oid
      case some id => exact qmpIssuedInv_settle hbase h id false
      case none => exact h
    case eventMsg => exact h
  case execCall =>
    simp only [stepQMP]
    split
    case isTrue =>
      intro j hj
      have hj2 : j ∈ s.issued ++ [s.commandId + 1] := hj
      show j ∈ s.pending ++ [s.commandId + 1] ∨ (settledIds s).count j = 1
      rcases List.mem_append.mp hj2 with hj3 | hj3
      · rcases h j hj3 with hjp | hjc
        · exact Or.inl (List.mem_append.mpr (Or.inl hjp))
        · exact Or.inr hjc
      · exact Or.inl (List.mem_append.mpr (Or.inr hj3))
    case isFalse => exact h
  case timeoutFire id => exact qmpIssuedInv_settle hbase h id false
  case closeEvt =>
    intro j hj
    right
    rw [settledIds_close, List.count_append]
    rcases h j hj with hjp | hjc
    · have h1 : (settledIds s).count j = 0 := hbase.pend_not_settled j hjp
      have h2 : s.pending.count j = 1 := List.count_eq_one_of_mem hbase.nodup hjp
      omega
    · have h2 : s.pending.count j = 0 := by
        rw [List.count_eq_zero]
        intro hmem
        have h0 := hbase.pend_not_settled j hmem
        omega
      omega
  case disconnectCall => exact absurd rfl he

theorem qmpIssuedInv_run (tr : List QMPEvent)
    (htr : QMPEvent.disconnectCall ∉ tr) : QMPIssuedInv (runQMP tr) := by
  suffices hgen : ∀ (l : List QMPEvent) (s : QMPState), QMPInv s →
      QMPIssuedInv s → QMPEvent.disconnectCall ∉ l →
      QMPIssuedInv (l.foldl stepQMP s) by
    refine hgen tr qmpInit (qmpInv_run []) ?_ htr
    intro j hj
    simp [qmpInit] at hj
  intro l
  induction l with
  | nil =>
    intro s _ hs _
    exact hs
  | cons e rest ih =>
    intro s hb hs hni
    have hne : e ≠ QMPEvent.disconnectCall := by
      intro heq
      exact hni (heq ▸ List.mem_cons_self e rest)
    have hnr : QMPEvent.disconnectCall ∉ rest := by
      intro hm
      exact hni (List.mem_cons_of_mem e hm)
    exact ih (stepQMP s e) (qmpInv_step hb e) (qmpIssuedInv_step hb hs e hne) hnr

/-- C2 (counterexample).  The claim that every `execute()` call settles
exactly once fails for sessions torn down by explicit `disconnect()`:
`disconnect()` clears the pending table without rejecting (line 188), the
close handler of the destroyed socket then iterates an already-empty
table, and the command's own 10s timeout finds no slot (`has(id)` is
false) and does not reject either.  Trace: negotiation completes, one
`execute()` issues command 1, `disconnect()` is called, the 10s timeout
fires, the socket close event fires — command 1 was issued but no
settlement was ever logged. -/
theorem qmp_execute_disconnect_leak :
    (runQMP [QMPEvent.recv (QMPMsg.result none), QMPEvent.execCall,
      QMPEvent.disconnectCall, QMPEvent.timeoutFire 1,
      QMPEvent.closeEvt]).issued = [1] ∧
    (runQMP [QMPEvent.recv (QMPMsg.result none), QMPEvent.execCall,
      QMPEvent.disconnectCall, QMPEvent.timeoutFire 1,
      QMPEvent.closeEvt]).settled = [] := by
  constructor <;> rfl

/-- C2 (amended).  In every session: (a) no `execute()` call is ever
settled more than once (no double resolve/reject, even under concurrent
overlapping calls); (b) the socket-close handler leaves the pending table
empty and the ready flag cleared, and rejects every slot that was pending
at close; (c) provided `disconnect()` is never called, every issued
command id either still has its pending slot or has been settled exactly
once — so a session ended by socket close settles every `execute()`
exactly once.  The original unconditional exactly-once claim fails on
`disconnect()` (`qmp_execute_disconnect_leak`). -/
theorem qmp_execute_settlement (tr : List QMPEvent) :
    (∀ id, (settledIds (runQMP tr)).count id ≤ 1) ∧
    ((runQMP (tr ++ [QMPEvent.closeEvt])).pending = [] ∧
      (runQMP (tr ++ [QMPEvent.closeEvt])).ready = false ∧
      ∀ id ∈ (runQMP tr).pending,
        (id, false) ∈ (runQMP (tr ++ [QMPEvent.closeEvt])).settled) ∧
    (QMPEvent.disconnectCall ∉ tr → ∀ id ∈ (runQMP tr).issued,
      id ∈ (runQMP tr).pending ∨ (settledIds (runQMP tr)).count id = 1) := by
  have hrunapp : runQMP (tr ++ [QMPEvent.closeEvt])
      = stepQMP (runQMP tr) QMPEvent.closeEvt := by
    unfold runQMP
    rw [List.foldl_append]
    rfl
  refine ⟨(qmpInv_run tr).once, ⟨?_, ?_, ?_⟩,
    fun hnd => qmpIssuedInv_run tr hnd⟩
  · rw [hrunapp]
    rfl
  · rw [hrunapp]
    rfl
  · intro id hid
    rw [hrunapp]
    show (id, false) ∈ (runQMP tr).settled
      ++ (runQMP tr).pending.map (fun i => (i, false))
    refine List.mem_append.mpr (Or.inr ?_)
    exact List.mem_map.mpr ⟨id, hid, rfl⟩

/-- C2 (witness): a command pending at socket close is rejected by the
close handler; a command answered by a correlated response is settled
exactly once. -/
theorem qmp_execute_settlement_witness :
    (1, false) ∈ (runQMP ([QMPEvent.recv (QMPMsg.result none),
      QMPEvent.execCall] ++ [QMPEvent.closeEvt])).settled ∧
    (1 ∈ (runQMP [QMPEvent.recv (QMPMsg.result none), QMPEvent.execCall,
        QMPEvent.recv (QMPMsg.result (some 1))]).pending ∨
      (settledIds (runQMP [QMPEvent.recv (QMPMsg.result none),
        QMPEvent.execCall, QMPEvent.recv (QMPMsg.result (some 1))])).count 1
        = 1) :=
  ⟨(qmp_execute_settlement
      [QMPEvent.recv (QMPMsg.result none), QMPEvent.execCall]).2.1.2.2
      1 (by decide),
   (qmp_execute_settlement
      [QMPEvent.recv (QMPMsg.result none), QMPEvent.execCall,
        QMPEvent.recv (QMPMsg.result (some 1))]).2.2
      (by decide) 1 (by decide)⟩

/-- C9: when the 10-second per-command timeout for id `id` fires, in any
reachable client state, only that command's own pending slot is affected:
the ready flag, the command-id counter, the socket-connection flag, the
negotiation flag and the issued log are unchanged; `id` is no longer
pending; every other id's pending slot is untouched; if `id` was pending
its slot is rejected (one settlement appended), and if it was not (the
response already arrived) the state is completely unchanged. -/
theorem qmp_timeout_frame (tr : List QMPEvent) (id : Nat) :
    (stepQMP (runQMP tr) (QMPEvent.timeoutFire id)).ready
        = (runQMP tr).ready ∧
    (stepQMP (runQMP tr) (QMPEvent.timeoutFire id)).commandId
        = (runQMP tr).commandId ∧
    (stepQMP (runQMP tr) (QMPEvent.timeoutFire id)).connected
        = (runQMP tr).connected ∧
    (stepQMP (runQMP tr) (QMPEvent.timeoutFire id)).negotiated
        = (runQMP tr).negotiated ∧
    (stepQMP (runQMP tr) (QMPEvent.timeoutFire id)).issued
        = (runQMP tr).issued ∧
    id ∉ (stepQMP (runQMP tr) (QMPEvent.timeoutFire id)).pending ∧
    (∀ j, j ≠ id →
      (j ∈ (stepQMP (runQMP tr) (QMPEvent.timeoutFire id)).pending ↔
        j ∈ (runQMP tr).pending)) ∧
    (id ∈ (runQMP tr).pending →
      (stepQMP (runQMP tr) (QMPEvent.timeoutFire id)).settled
        = (runQMP tr).settled ++ [(id, false)]) ∧
    (id ∉ (runQMP tr).pending →
      stepQMP (runQMP tr) (QMPEvent.timeoutFire id) = runQMP tr) := by
  have hinv := qmpInv_run tr
  by_cases hmem : id ∈ (runQMP tr).pending
  · obtain ⟨hpend, -, hcid, hiss, hready, hconn, hneg, hsettled⟩ :=
      settleIfPending_of_mem false hmem
    refine ⟨hready, hcid, hconn, hneg, hiss, ?_, ?_,
      fun _ => hsettled, fun hn => absurd hmem hn⟩
    · show id ∉ (settleIfPending (runQMP tr) id false).pending
      rw [hpend]
      exact hinv.nodup.not_mem_erase
    · intro j hj
      show j ∈ (settleIfPending (runQMP tr) id false).pending ↔
        j ∈ (runQMP tr).pending
      rw [hpend]
      exact List.mem_erase_of_ne hj
  · have heq : stepQMP (runQMP tr) (QMPEvent.timeoutFire id) = runQMP tr :=
      settleIfPending_of_not_mem false hmem
    rw [heq]
    exact ⟨rfl, rfl, rfl, rfl, rfl, hmem, fun j hj => Iff.rfl,
      fun hmem2 => absurd hmem2 hmem, fun _ => rfl⟩

/-- C9 (witness): with two commands in flight, the timeout of command 1
rejects only command 1; command 2 stays pending; nothing else changes. -/
theorem qmp_timeout_frame_witness :
    (stepQMP (runQMP [QMPEvent.recv (QMPMsg.result none), QMPEvent.execCall,
        QMPEvent.execCall]) (QMPEvent.timeoutFire 1)).settled
      = (runQMP [QMPEvent.recv (QMPMsg.result none), QMPEvent.execCall,
        QMPEvent.execCall]).settled ++ [(1, false)] ∧
    (2 ∈ (stepQMP (runQMP [QMPEvent.recv (QMPMsg.result none),
        QMPEvent.execCall, QMPEvent.execCall])
        (QMPEvent.timeoutFire 1)).pending ↔
      2 ∈ (runQMP [QMPEvent.recv (QMPMsg.result none), QMPEvent.execCall,
        QMPEvent.execCall]).pending) :=
  ⟨(qmp_timeout_frame [QMPEvent.recv (QMPMsg.result none), QMPEvent.execCall,
      QMPEvent.execCall] 1).2.2.2.2.2.2.2.1 (by decide),
   (qmp_timeout_frame [QMPEvent.recv (QMPMsg.result none), QMPEvent.execCall,
      QMPEvent.execCall] 1).2.2.2.2.2.2.1 2 (by decide)⟩

/- ### Port allocator — `VMManager.findFreePort` / `checkPort`
(src/vm-manager.js lines 348–369) and the port allocation in `start()`
(lines 95–97)

`checkPort(port)` attempts to bind a probe listener and reports success;
its outcome is modelled by an oracle `free : Nat → Bool`.  `findFreePort`
is a `while (port < startPort + 100)` loop that returns the first free
candidate, i.e. exactly 100 candidates `startPort, …, startPort + 99`,
modelled by structural recursion on the remaining candidate count.
`start()` allocates `serialPort = findFreePort(14000)` and then
`qmpPort = findFreePort(serialPort + 1)`. -/

def findFreePortGo (free : Nat → Bool) : Nat → Nat → Option Nat
  | 0, _ => none
  | fuel + 1, p => if free p then some p else findFreePortGo free fuel (p + 1)

def findFreePort (free : Nat → Bool) (startPort : Nat) : Option Nat :=
  findFreePortGo free 100 startPort

/-- The two-port allocation performed by `VMManager.start()`. -/
def allocatePorts (free : Nat → Bool) : Option (Nat × Nat) :=
  match findFreePort free 14000 with
  | none => none
  | some sp =>
    match findFreePort free (sp + 1) with
    | none => none
    | some qp => some (sp, qp)

theorem findFreePortGo_some {free : Nat → Bool} {fuel start p : Nat}
    (h : findFreePortGo free fuel start = some p) :
    free p = true ∧ start ≤ p ∧ p < start + fuel ∧
      ∀ q, start ≤ q → q < p → free q = false := by
  induction fuel generalizing start with
  | zero => simp [findFreePortGo] at h
  | succ n ih =>
    unfold findFreePortGo at h
    by_cases hf : free start = true
    · rw [if_pos hf] at h
      obtain rfl : start = p := by simpa using h
      exact ⟨hf, le_refl _, by omega, fun q hq1 hq2 => absurd hq1 (by omega)⟩
    · rw [if_neg hf] at h
      obtain ⟨h1, h2, h3, h4⟩ := ih h
      refine ⟨h1, by omega, by omega, ?_⟩
      intro q hq1 hq2
      by_cases hqs : q = start
      · subst hqs
        exact Bool.not_eq_true _ |>.mp hf
      · exact h4 q (by omega) hq2

theorem findFreePortGo_none {free : Nat → Bool} {fuel start : Nat} :
    findFreePortGo free fuel start = none ↔
      ∀ q, start ≤ q → q < start + fuel → free q = false := by
  induction fuel generalizing start with
  | zero => simp [findFreePortGo]; omega
  | succ n ih =>
    unfold findFreePortGo
    by_cases hf : free start = true
    · rw [if_pos hf]
      simp only [reduceCtorEq, false_iff, not_forall]
      exact ⟨start, le_refl _, by omega, by simp [hf]⟩
    · rw [if_neg hf]
      rw [ih]
      constructor
      · intro h q hq1 hq2
        by_cases hqs : q = start
        · subst hqs
          exact Bool.not_eq_true _ |>.mp hf
        · exact h q (by omega) (by omega)
      · intro h q hq1 hq2
        exact h q (by omega) (by omega)

/-- C5: `findFreePort(start)` scans candidates upward from `start`,
tests at most 100 of them, and returns the first on which the probe bind
succeeds; it fails (throws `No free port found`, modelled by `none`) iff
all 100 candidates are taken.  Consequently a successful `start()` gets
two distinct ports: the control-port search begins one above the
allocated console port. -/
theorem findFreePort_spec (free : Nat → Bool) (start : Nat) :
    (∀ p, findFreePort free start = some p →
      free p = true ∧ start ≤ p ∧ p < start + 100 ∧
        ∀ q, start ≤ q → q < p → free q = false) ∧
    (findFreePort free start = none ↔
      ∀ q, start ≤ q → q < start + 100 → free q = false) ∧
    (∀ sp qp, allocatePorts free = some (sp, qp) →
      14000 ≤ sp ∧ sp + 1 ≤ qp ∧ sp ≠ qp) := by
  refine ⟨fun p h => findFreePortGo_some h, findFreePortGo_none, ?_⟩
  intro sp qp h
  unfold allocatePorts at h
  cases h1 : findFreePort free 14000 with
  | none => rw [h1] at h; exact absurd h (by simp)
  | some sp2 =>
    rw [h1] at h
    dsimp only at h
    cases h2 : findFreePort free (sp2 + 1) with
    | none => rw [h2] at h; exact absurd h (by simp)
    | some qp2 =>
      rw [h2] at h
      obtain ⟨rfl, rfl⟩ : sp2 = sp ∧ qp2 = qp := by
        constructor <;> simp_all
      obtain ⟨-, hs1, -, -⟩ := findFreePortGo_some h1
      obtain ⟨-, hq1, -, -⟩ := findFreePortGo_some h2
      exact ⟨hs1, hq1, by omega⟩

/-- C5 (witness): with every probe succeeding, `start()` allocates
console port 14000 and control port 14001, which are distinct. -/
theorem findFreePort_spec_witness :
    allocatePorts (fun _ => true) = some (14000, 14001) ∧ 14000 ≠ 14001 :=
  ⟨rfl, ((findFreePort_spec (fun _ => true) 14000).2.2 14000 14001 rfl).2.2⟩

/- ### Shutdown escalation — `VMManager.stop()`
(src/vm-manager.js lines 271–320)

`stop()` optionally issues a best-effort graceful QMP power-down, arms a
15s timer (`gracefulTimeout`) and registers a `once('exit')` listener
that clears that timer and runs `cleanup()`.  If the 15s timer fires, it
sends SIGTERM, arms a 5s timer (`forceTimeout`) that sends SIGKILL and
runs `cleanup()`, and registers a second `once('exit')` listener that
clears the 5s timer and runs `cleanup()`.  `cleanup()` disconnects the
QMP client and the console client, clears the running flag, nulls both
ports and resolves the promise.

The timers and the process-exit callback are serialized by the event
loop; a cleared timer never fires.  This is modelled by a transition
system whose events are "the process exits", "the 15s timer fires" and
"the 5s timer fires", where a timer event is a no-op unless that timer
is still armed, and the real-time constraint "the process exited before
the 15s timer" is the ordering constraint that the exit event precedes
any 15s-timer event in the trace. -/

structure StopState where
  graceArmed : Bool
  forceArmed : Bool
  innerExitHooked : Bool
  exited : Bool
  termSent : Bool
  killSent : Bool
  qmpConnected : Bool
  termConnected : Bool
  isRunning : Bool
  serialPort : Option Nat
  qmpPort : Option Nat
  cleanups : Nat
deriving DecidableEq

/-- State at entry to `stop()`: VM running, both clients connected, the
15s graceful timer just armed. -/
def stopInit (sp qp : Nat) : StopState :=
  ⟨true, false, false, false, false, false, true, true, true,
    some sp, some qp, 0⟩

/-- The `cleanup()` closure of `stop()`. -/
def doCleanup (s : StopState) : StopState :=
  { s with qmpConnected := false, termConnected := false, isRunning := false,
           serialPort := none, qmpPort := none, cleanups := s.cleanups + 1 }

inductive StopEv
  | procExit
  | graceFire
  | forceFire
deriving DecidableEq

def stopStep (s : StopState) : StopEv → StopState
  | StopEv.procExit =>
    if s.exited then s
    else
      -- outer once-listener: clearTimeout(gracefulTimeout); cleanup()
      -- inner once-listener (if registered): clearTimeout(forceTimeout);
      -- cleanup()
      let s1 := doCleanup { s with exited := true, graceArmed := false }
      if s.innerExitHooked then doCleanup { s1 with forceArmed := false }
      else s1
  | StopEv.graceFire =>
    if s.graceArmed then
      { s with graceArmed := false, termSent := true, forceArmed := true,
               innerExitHooked := true }
    else s
  | StopEv.forceFire =>
    if s.forceArmed then doCleanup { s with forceArmed := false, killSent := true }
    else s

def runStop (sp qp : Nat) (evs : List StopEv) : StopState :=
  evs.foldl stopStep (stopInit sp qp)

theorem stopStep_pre {sp qp : Nat} {pre : List StopEv}
    (hg : StopEv.graceFire ∉ pre) (hx : StopEv.procExit ∉ pre) :
    runStop sp qp pre = stopInit sp qp := by
  unfold runStop
  induction pre with
  | nil => rfl
  | cons e rest ih =>
    have he1 : e ≠ StopEv.graceFire := by
      intro heq
      exact hg (heq ▸ List.mem_cons_self e rest)
    have he2 : e ≠ StopEv.procExit := by
      intro heq
      exact hx (heq ▸ List.mem_cons_self e rest)
    have hstep : stopStep (stopInit sp qp) e = stopInit sp qp := by
      cases e
      case procExit => exact absurd rfl he2
      case graceFire => exact absurd rfl he1
      case forceFire => simp [stopStep, stopInit]
    rw [List.foldl_cons, hstep]
    exact ih (fun hm => hg (List.mem_cons_of_mem e hm))
      (fun hm => hx (List.mem_cons_of_mem e hm))

/-- After an early exit everything is quiesced: all further events are
no-ops. -/
def stopQuiesced : StopState :=
  ⟨false, false, false, true, false, false, false, false, false,
    none, none, 1⟩

theorem stopStep_quiesced (e : StopEv) :
    stopStep stopQuiesced e = stopQuiesced := by
  cases e <;> simp [stopStep, stopQuiesced]

theorem runStop_post (post : List StopEv) :
    post.foldl stopStep stopQuiesced = stopQuiesced := by
  induction post with
  | nil => rfl
  | cons e rest ih => rw [List.foldl_cons, stopStep_quiesced, ih]

/-- C6: if the VM process exits before the 15-second graceful timer fires
(e.g. one second after the power-down command was sent), then the exit
listener disarms the pending timers: SIGTERM is never sent, SIGKILL is
never sent, and `cleanup()` runs exactly once, at the exit — the QMP and
console clients are disconnected, the running flag is cleared and both
ports are released; before the exit no cleanup had run. -/
theorem stop_early_exit_disarms (sp qp : Nat) (pre post : List StopEv)
    (hg : StopEv.graceFire ∉ pre) (hx : StopEv.procExit ∉ pre) :
    (runStop sp qp (pre ++ StopEv.procExit :: post)).termSent = false ∧
    (runStop sp qp (pre ++ StopEv.procExit :: post)).killSent = false ∧
    (runStop sp qp (pre ++ StopEv.procExit :: post)).cleanups = 1 ∧
    (runStop sp qp (pre ++ StopEv.procExit :: post)).isRunning = false ∧
    (runStop sp qp (pre ++ StopEv.procExit :: post)).qmpConnected = false ∧
    (runStop sp qp (pre ++ StopEv.procExit :: post)).termConnected = false ∧
    (runStop sp qp (pre ++ StopEv.procExit :: post)).serialPort = none ∧
    (runStop sp qp (pre ++ StopEv.procExit :: post)).qmpPort = none ∧
    (runStop sp qp pre).cleanups = 0 := by
  have hrun : runStop sp qp (pre ++ StopEv.procExit :: post)
      = post.foldl stopStep (stopStep (runStop sp qp pre) StopEv.procExit) := by
    unfold runStop
    rw [List.foldl_append, List.foldl_cons]
  have hexit : stopStep (stopInit sp qp) StopEv.procExit
      = stopQuiesced := by
    simp [stopStep, stopInit, doCleanup, stopQuiesced]
  rw [hrun, stopStep_pre hg hx, hexit, runStop_post post]
  exact ⟨rfl, rfl, rfl, rfl, rfl, rfl, rfl, rfl, rfl⟩

/-- C6 (witness): the process exits right after the power-down command;
the later timer events are dead. -/
theorem stop_early_exit_disarms_witness :
    (runStop 14000 14001
      [StopEv.procExit, StopEv.graceFire, StopEv.forceFire]).termSent
        = false ∧
    (runStop 14000 14001
      [StopEv.procExit, StopEv.graceFire, StopEv.forceFire]).killSent
        = false ∧
    (runStop 14000 14001
      [StopEv.procExit, StopEv.graceFire, StopEv.forceFire]).cleanups = 1 :=
  ⟨((stop_early_exit_disarms 14000 14001 []
      [StopEv.graceFire, StopEv.forceFire] (by decide) (by decide))).1,
   ((stop_early_exit_disarms 14000 14001 []
      [StopEv.graceFire, StopEv.forceFire] (by decide) (by decide))).2.1,
   ((stop_early_exit_disarms 14000 14001 []
      [StopEv.graceFire, StopEv.forceFire] (by decide) (by decide))).2.2.1⟩

/- ### Split-asset selection — `UpdateChecker.getSplitAssets`
(src/update-checker.js lines 77–81) and the split-download loop
(lines 123–161)

`getSplitAssets(release)` filters the release assets whose `name`
matches the regex `\.tar\.gz\.[a-z]+$` — i.e. the name ends in
`".tar.gz."` followed by one or more lowercase letters — and sorts them
by name (`localeCompare` on the full names; for these ASCII names this
is the character-wise lexicographic order, and JS `Array.prototype.sort`
is stable, modelled by `insertionSort`).  The download loop of
`downloadAndExtractVM` then iterates the returned array in order. -/

def isLowerAZ (c : Char) : Bool := decide ('a' ≤ c) && decide (c ≤ 'z')

/-- `name.match(/\.tar\.gz\.[a-z]+$/)`: the trailing maximal lowercase
run is nonempty and what precedes it ends in `".tar.gz."` (checked on
the reversed name). -/
def matchesSplitPattern (s : List Char) : Bool :=
  let run := s.reverse.takeWhile isLowerAZ
  decide (run ≠ []) && leadsWith ".zg.rat.".toList (s.reverse.drop run.length)

theorem takeWhile_plus_drop (p : Char → Bool) (l : List Char) :
    l = l.takeWhile p ++ l.drop (l.takeWhile p).length := by
  induction l with
  | nil => rfl
  | cons c rest ih =>
    by_cases hc : p c = true
    · simp only [List.takeWhile_cons, hc, if_true, List.length_cons,
        List.drop_succ_cons, List.cons_append]
      exact congrArg (c :: ·) ih
    · simp only [List.takeWhile_cons, hc]
      simp [hc]

theorem takeWhile_all_stop (p : Char → Bool) (a : List Char) (c : Char)
    (d : List Char) (ha : ∀ x ∈ a, p x = true) (hc : p c = false) :
    (a ++ c :: d).takeWhile p = a := by
  induction a with
  | nil => simp [List.takeWhile_cons, hc]
  | cons x xs ih =>
    have hx : p x = true := ha x (List.mem_cons_self x xs)
    simp only [List.cons_append, List.takeWhile_cons, hx, if_true,
      List.cons.injEq, true_and]
    exact ih (fun y hy => ha y (List.mem_cons_of_mem x hy))

/-- The executable pattern check agrees with the regex
`\.tar\.gz\.[a-z]+$`. -/
theorem matchesSplitPattern_iff (s : List Char) :
    matchesSplitPattern s = true ↔
      ∃ t u, s = t ++ ".tar.gz.".toList ++ u ∧ u ≠ [] ∧
        ∀ c ∈ u, isLowerAZ c = true := by
  constructor
  · intro h
    unfold matchesSplitPattern at h
    obtain ⟨hrun, hlead⟩ := Bool.and_eq_true _ _ |>.mp h
    set run := s.reverse.takeWhile isLowerAZ with hrundef
    have hrun2 : run ≠ [] := of_decide_eq_true hrun
    obtain ⟨w, hw⟩ := (leadsWith_iff _ _).mp hlead
    have hsrev : s.reverse = run ++ (".zg.rat.".toList ++ w) := by
      conv_lhs => rw [takeWhile_plus_drop isLowerAZ s.reverse]
      rw [← hrundef, hw]
    have h2 : s = (run ++ (".zg.rat.".toList ++ w)).reverse := by
      have h3 := congrArg List.reverse hsrev
      rwa [List.reverse_reverse] at h3
    have hpat : (".zg.rat.".toList).reverse = ".tar.gz.".toList := by decide
    refine ⟨w.reverse, run.reverse, ?_, ?_, ?_⟩
    · rw [h2]
      simp only [List.reverse_append]
      rw [hpat]
    · simp [hrun2]
    · intro c hc
      have hc2 : c ∈ run := List.mem_reverse.mp hc
      rw [hrundef] at hc2
      exact List.mem_takeWhile_imp hc2
  · rintro ⟨t, u, rfl, hu, hlow⟩
    unfold matchesSplitPattern
    have hsrev : (t ++ ".tar.gz.".toList ++ u).reverse
        = u.reverse ++ ('.' :: ("zg.rat.".toList ++ t.reverse)) := by
      simp only [List.reverse_append]
      have hpat : (".tar.gz.".toList).reverse = '.' :: "zg.rat.".toList := by
        decide
      rw [hpat]
      simp
    rw [hsrev]
    have hrun : List.takeWhile isLowerAZ
        (u.reverse ++ '.' :: ("zg.rat.".toList ++ t.reverse)) = u.reverse := by
      refine takeWhile_all_stop isLowerAZ u.reverse '.' _ ?_ (by decide)
      intro x hx
      exact hlow x (List.mem_reverse.mp hx)
    rw [hrun]
    refine Bool.and_eq_true _ _ |>.mpr ⟨decide_eq_true (by simp [hu]), ?_⟩
    rw [List.drop_left]
    exact (leadsWith_iff _ _).mpr ⟨t.reverse, rfl⟩

/-- A release asset: its name and size (download URL omitted — not used
by selection or ordering). -/
structure Asset where
  name : List Char
  size : Nat
deriving DecidableEq

/-- Character-wise lexicographic comparison of names (the effect of
`a.name.localeCompare(b.name)` on these ASCII names). -/
def lexLe : List Char → List Char → Bool
  | [], _ => true
  | _ :: _, [] => false
  | a :: as, b :: bs => if a = b then lexLe as bs else decide (a < b)

def assetLe (a b : Asset) : Prop := lexLe a.name b.name = true

instance : DecidableRel assetLe := fun a b =>
  inferInstanceAs (Decidable (lexLe a.name b.name = true))

theorem lexLe_total (s t : List Char) : lexLe s t = true ∨ lexLe t s = true := by
  induction s generalizing t with
  | nil => exact Or.inl rfl
  | cons a as ih =>
    cases t with
    | nil => exact Or.inr rfl
    | cons b bs =>
      by_cases hab : a = b
      · subst hab
        rcases ih bs with h | h
        · exact Or.inl (by simp [lexLe, h])
        · exact Or.inr (by simp [lexLe, h])
      · rcases lt_or_gt_of_ne hab with h | h
        · exact Or.inl (by simp [lexLe, hab, h])
        · refine Or.inr ?_
          have hba : ¬(b = a) := fun heq => hab heq.symm
          simp [lexLe, hba, h]

theorem lexLe_trans {s t u : List Char} (h1 : lexLe s t = true)
    (h2 : lexLe t u = true) : lexLe s u = true := by
  induction s generalizing t u with
  | nil => rfl
  | cons a as ih =>
    cases t with
    | nil => simp [lexLe] at h1
    | cons b bs =>
      cases u with
      | nil => simp [lexLe] at h2
      | cons c cs =>
        simp only [lexLe] at h1 h2 ⊢
        by_cases hab : a = b
        · subst hab
          rw [if_pos rfl] at h1
          by_cases hac : a = c
          · subst hac
            rw [if_pos rfl] at h2 ⊢
            exact ih h1 h2
          · rw [if_neg hac] at h2 ⊢
            exact h2
        · rw [if_neg hab] at h1
          have hlt1 : a < b := of_decide_eq_true h1
          by_cases hbc : b = c
          · subst hbc
            rw [if_neg hab]
            exact h1
          · rw [if_neg hbc] at h2
            have hlt2 : b < c := of_decide_eq_true h2
            have hac : a < c := lt_trans hlt1 hlt2
            have hne : ¬(a = c) := by
              intro heq
              exact absurd (heq ▸ hac) (lt_irrefl c)
            rw [if_neg hne]
            exact decide_eq_true hac

instance : IsTotal Asset assetLe := ⟨fun a b => lexLe_total a.name b.name⟩

instance : IsTrans Asset assetLe := ⟨fun _ _ _ h1 h2 => lexLe_trans h1 h2⟩

/-- `UpdateChecker.getSplitAssets`: filter on the split-name pattern,
then a stable sort by name. -/
def getSplitAssets (assets : List Asset) : List Asset :=
  List.insertionSort assetLe
    (assets.filter (fun a => matchesSplitPattern a.name))

/-- The order in which `downloadAndExtractVM`'s split-download loop
fetches (and later concatenates) the parts: the order of
`getSplitAssets`. -/
def splitDownloadOrder (assets : List Asset) : List (List Char) :=
  (getSplitAssets assets).map Asset.name

/-- C4: `getSplitAssets` returns exactly the assets whose names match the
split-part pattern `\.tar\.gz\.[a-z]+$` (a `".tar.gz."` run followed by a
nonempty lowercase suffix at end of name), sorted by full name; the
executable pattern check provably coincides with that regex; and on the
release containing `img.tar.gz.ab`, `img.tar.gz.aa`, `img.tar.gz.ac` the
download (and concatenation) order is `aa, ab, ac`. -/
theorem getSplitAssets_spec (assets : List Asset) :
    ((getSplitAssets assets).Perm
      (assets.filter (fun a => matchesSplitPattern a.name))) ∧
    List.Sorted assetLe (getSplitAssets assets) ∧
    (∀ a, a ∈ getSplitAssets assets ↔
      a ∈ assets ∧ matchesSplitPattern a.name = true) ∧
    (∀ s, matchesSplitPattern s = true ↔
      ∃ t u, s = t ++ ".tar.gz.".toList ++ u ∧ u ≠ [] ∧
        ∀ c ∈ u, isLowerAZ c = true) ∧
    splitDownloadOrder
      [⟨"img.tar.gz.ab".toList, 1⟩, ⟨"img.tar.gz.aa".toList, 2⟩,
        ⟨"img.tar.gz.ac".toList, 3⟩]
      = ["img.tar.gz.aa".toList, "img.tar.gz.ab".toList,
        "img.tar.gz.ac".toList] := by
  refine ⟨List.perm_insertionSort assetLe _,
    List.sorted_insertionSort assetLe _, ?_, matchesSplitPattern_iff, ?_⟩
  · intro a
    unfold getSplitAssets
    rw [(List.perm_insertionSort assetLe _).mem_iff, List.mem_filter]
  · decide

/-- C4 (witness): `img.tar.gz.aa` matches the split pattern and is
selected from the example release. -/
theorem getSplitAssets_spec_witness :
    matchesSplitPattern ("img.tar.gz.aa".toList) = true ∧
    (⟨"img.tar.gz.aa".toList, 2⟩ : Asset) ∈ getSplitAssets
      [⟨"img.tar.gz.ab".toList, 1⟩, ⟨"img.tar.gz.aa".toList, 2⟩,
        ⟨"img.tar.gz.ac".toList, 3⟩] :=
  ⟨((getSplitAssets_spec []).2.2.2.1 ("img.tar.gz.aa".toList)).mpr
      ⟨"img".toList, "aa".toList, by decide, by decide, by decide⟩,
   ((getSplitAssets_spec
      [⟨"img.tar.gz.ab".toList, 1⟩, ⟨"img.tar.gz.aa".toList, 2⟩,
        ⟨"img.tar.gz.ac".toList, 3⟩]).2.2.1 _).mpr ⟨by decide, by decide⟩⟩

/- ### File download — `UpdateChecker.downloadFile`
(src/update-checker.js lines 239–305)

One `https.get` per attempt; the scripted environment is the list of
responses successive GETs produce (`netFail` models the request `error`
event).  Statuses 301 and 302 recurse on `res.headers.location` (the
next scripted response) after closing the file; any other status except
200 closes the file, unlinks the partial file and rejects with
`Download failed: HTTP <status>`; a 200 response streams its data
chunks, emitting a progress event at most once per 500 ms, and on `end`
emits one unconditional final progress event whose `total` and
`downloaded` are both the byte count actually received (not the
Content-Length header) and whose `percent` is the literal 100.
Timestamps are in milliseconds since the attempt started
(`startTime = lastUpdateTime = Date.now()` at entry, modelled as 0). -/

structure ProgressEv where
  downloaded : Nat
  total : Nat
  percent : Nat
  speed : ℚ
deriving DecidableEq

/-- `Math.round((downloaded / total) * 100)` for `total > 0`. -/
def percentRound (d t : Nat) : Nat := (200 * d + t) / (2 * t)

/-- `downloadedBytes / elapsedSeconds / 1024 / 1024` (0 before any time
has elapsed), with `elapsed = now / 1000` seconds. -/
def speedOf (d nowMs : Nat) : ℚ :=
  if 0 < nowMs then (d : ℚ) / ((nowMs : ℚ) / 1000) / 1024 / 1024 else 0

structure DLAcc where
  downloaded : Nat
  lastUpdate : Nat
  events : List ProgressEv
deriving DecidableEq

/-- The `res.on('data')` handler for one chunk `(arrival ms, bytes)`. -/
def dlStep (total : Nat) (acc : DLAcc) (ch : Nat × Nat) : DLAcc :=
  let now := ch.1
  let d := acc.downloaded + ch.2
  if 500 < now - acc.lastUpdate then
    { downloaded := d, lastUpdate := now,
      events := acc.events ++
        [⟨d, total, if 0 < total then percentRound d total else 0,
          speedOf d now⟩] }
  else { acc with downloaded := d }

structure HttpResp where
  status : Nat
  contentLength : Option Nat
  chunks : List (Nat × Nat)
deriving DecidableEq

inductive FetchStep
  | resp (r : HttpResp)
  | netFail
deriving DecidableEq

inductive DLOutcome
  | success
  | httpError (status : Nat)
  | netError
  | pendingResponse
deriving DecidableEq

structure DLResult where
  outcome : DLOutcome
  fileRemoved : Bool
  events : List ProgressEv
deriving DecidableEq

def downloadFile : List FetchStep → DLResult
  | [] => ⟨DLOutcome.pendingResponse, false, []⟩
  | FetchStep.netFail :: _ => ⟨DLOutcome.netError, true, []⟩
  | FetchStep.resp r :: rest =>
    if r.status = 301 ∨ r.status = 302 then downloadFile rest
    else if r.status = 200 then
      let acc := r.chunks.foldl (dlStep (r.contentLength.getD 0)) ⟨0, 0, []⟩
      ⟨DLOutcome.success, false,
        acc.events ++ [⟨acc.downloaded, acc.downloaded, 100, 0⟩]⟩
    else ⟨DLOutcome.httpError r.status, true, []⟩

/-- C7 (counterexample).  "Redirect responses are followed transparently"
is false for redirect statuses other than 301/302: a 307 response is
treated as an error — `downloadFile` rejects with `HTTP 307` and unlinks
the partial file instead of following the redirect to the scripted next
response, which would have succeeded. -/
theorem downloadFile_redirect_cex :
    (downloadFile [FetchStep.resp ⟨307, some 10, [(600, 10)]⟩,
      FetchStep.resp ⟨200, some 10, [(600, 10)]⟩]).outcome
      = DLOutcome.httpError 307 ∧
    (downloadFile [FetchStep.resp ⟨307, some 10, [(600, 10)]⟩,
      FetchStep.resp ⟨200, some 10, [(600, 10)]⟩]).fileRemoved = true ∧
    (downloadFile [FetchStep.resp ⟨200, some 10, [(600, 10)]⟩]).outcome
      = DLOutcome.success := by
  refine ⟨rfl, rfl, rfl⟩

/-- C7 (amended).  `downloadFile` fails with a download error and removes
the partial file it created for every HTTP status other than 200, 301 and
302 — in particular for every non-2xx, non-redirect status, but also for
redirect statuses 303/307/308, which are not followed; only 301 and 302
redirects are followed transparently (the call behaves exactly as the
call on the redirect target); a 200 response succeeds without removing
the file. -/
theorem downloadFile_status_handling (r : HttpResp) (rest : List FetchStep) :
    (r.status ≠ 200 → r.status ≠ 301 → r.status ≠ 302 →
      downloadFile (FetchStep.resp r :: rest)
        = ⟨DLOutcome.httpError r.status, true, []⟩) ∧
    ((r.status = 301 ∨ r.status = 302) →
      downloadFile (FetchStep.resp r :: rest) = downloadFile rest) ∧
    (r.status = 200 →
      (downloadFile (FetchStep.resp r :: rest)).outcome = DLOutcome.success ∧
      (downloadFile (FetchStep.resp r :: rest)).fileRemoved = false) := by
  refine ⟨?_, ?_, ?_⟩
  · intro h200 h301 h302
    unfold downloadFile
    rw [if_neg (by rintro (h | h); exacts [h301 h, h302 h]), if_neg h200]
  · intro hred
    conv_lhs => rw [downloadFile]
    rw [if_pos hred]
  · intro h200
    unfold downloadFile
    rw [if_neg (by rintro (h | h) <;> omega), if_pos h200]
    exact ⟨rfl, rfl⟩

/-- C7 (witness): a 404 fails and removes the partial file; a 301 is
followed transparently. -/
theorem downloadFile_status_handling_witness :
    downloadFile [FetchStep.resp ⟨404, none, []⟩]
      = ⟨DLOutcome.httpError 404, true, []⟩ ∧
    downloadFile [FetchStep.resp ⟨301, none, []⟩,
        FetchStep.resp ⟨200, none, []⟩]
      = downloadFile [FetchStep.resp ⟨200, none, []⟩] :=
  ⟨(downloadFile_status_handling ⟨404, none, []⟩ []).1
      (by decide) (by decide) (by decide),
   (downloadFile_status_handling ⟨301, none, []⟩
      [FetchStep.resp ⟨200, none, []⟩]).2.1 (Or.inl rfl)⟩

theorem dl_downloaded_foldl (total : Nat) (chs : List (Nat × Nat))
    (acc : DLAcc) :
    (chs.foldl (dlStep total) acc).downloaded
      = acc.downloaded + (chs.map Prod.snd).sum := by
  induction chs generalizing acc with
  | nil => simp
  | cons ch rest ih =>
    rw [List.foldl_cons, ih]
    have hstep : (dlStep total acc ch).downloaded = acc.downloaded + ch.2 := by
      simp only [dlStep]
      by_cases hc : 500 < ch.1 - acc.lastUpdate
      · rw [if_pos hc]
      · rw [if_neg hc]
    rw [hstep]
    simp [Nat.add_assoc]

/-- C10: for every successful (status-200) download, the `end` handler
emits a final progress event unconditionally (it is appended after the
throttled events, whatever their timing), and that last event reports
`percent = 100` and `total = downloaded =` the number of bytes actually
received (the sum of the chunk sizes), regardless of the Content-Length
header — also when the header is absent. -/
theorem downloadFile_final_progress (r : HttpResp) (rest : List FetchStep)
    (h200 : r.status = 200) :
    (downloadFile (FetchStep.resp r :: rest)).events ≠ [] ∧
    (downloadFile (FetchStep.resp r :: rest)).events.getLast?
      = some ⟨(r.chunks.map Prod.snd).sum, (r.chunks.map Prod.snd).sum,
          100, 0⟩ := by
  unfold downloadFile
  rw [if_neg (by rintro (h | h) <;> omega), if_pos h200]
  dsimp only
  constructor
  · simp
  · rw [List.getLast?_concat, dl_downloaded_foldl]
    simp

/-- C10 (witness): two chunks of 5 and 15 bytes arriving inside the
throttle window with a Content-Length header of 999 still end with a
final event reporting 20 of 20 bytes at 100%. -/
theorem downloadFile_final_progress_witness :
    (downloadFile [FetchStep.resp ⟨200, some 999,
      [(100, 5), (200, 15)]⟩]).events.getLast? = some ⟨20, 20, 100, 0⟩ := by
  simpa using (downloadFile_final_progress
    ⟨200, some 999, [(100, 5), (200, 15)]⟩ [] rfl).2
